import Mathlib

/-!
Verification development for the botdetect repository.

The Go sources are shallowly embedded: time instants are integers
(`Int`, nanoseconds since epoch; `time.Time.After` is `<` on the flipped
arguments, `Before` is `<`), machine counters (`uint64`) are `Nat`
(they only ever increase by one per request, so wrap-around is out of
reach), `float64` ratio arithmetic is `ℚ` (the ratio comparison is only
evaluated under the guard `app > MaxRequests`, hence `app ≥ 1` and the
division is exact), Go strings handled character-wise are `List Char`,
and Go maps are association lists or option-valued functions as noted
at each definition.
-/

namespace Botdetect

/-! ## List utilities modelling Go stdlib pieces -/

/-- Models Go `strings.Split(s, sep)` for a one-character separator:
`splitOnChar sep []` is `[[]]` just as `strings.Split("", sep)` is `[""]`. -/
def splitOnChar (sep : Char) : List Char → List (List Char)
  | [] => [[]]
  | c :: rest =>
    if c = sep then
      [] :: splitOnChar sep rest
    else
      match splitOnChar sep rest with
      | [] => [[c]]
      | r :: rs => (c :: r) :: rs

/-- Boolean test that `p` occurs at the front of `s` (models byte-wise
comparison of a pattern against the head of a string). -/
def hasPrefixB : List Char → List Char → Bool
  | [], _ => true
  | _ :: _, [] => false
  | p :: ps, c :: cs => p = c && hasPrefixB ps cs

/-- `ContainsSeq p s` holds when `p` occurs contiguously somewhere inside `s`. -/
def ContainsSeq (p s : List Char) : Prop :=
  ∃ pre post, s = pre ++ p ++ post

/-! ## Asset classifier

The Go code classifies a request URL with the regular expression
`\.(jpg|png|css|js|gif|ico)` (`regexp.MatchString`, i.e. the pattern may
match anywhere in the string).  The embedding scans every position of
the string and tests whether one of the six literal alternatives,
preceded by a dot, starts there. -/

/-- The six literal alternation branches of the asset regular expression,
each with the leading `\.` of the pattern. -/
def assetPatterns : List String :=
  [".jpg", ".png", ".css", ".js", ".gif", ".ico"]

/-- Scan every position of the character list and test whether one of the
patterns starts there; models `regexp.MatchString` for a regular
expression that is an alternation of string literals. -/
def scanAny (pats : List (List Char)) : List Char → Bool
  | [] => false
  | c :: rest => pats.any (fun p => hasPrefixB p (c :: rest)) || scanAny pats rest

/-- Models `h.assetRegexp.MatchString(url)` from `history.go`. -/
def assetMatch (url : String) : Bool :=
  scanAny (assetPatterns.map String.toList) url.toList

/-- Request classification: the spec's `{application, asset}`. -/
inductive Classification where
  | application
  | asset
deriving DecidableEq, Repr

/-- The spec's `classify(path)`; in the Go code this is the inlined test
`h.assetRegexp.MatchString(req.URL)` choosing between the `Other` and
`App` counters. -/
def classify (url : String) : Classification :=
  if assetMatch url then Classification.asset else Classification.application

/-! ## IP addresses (`ip.go` and the `net` stdlib pieces it relies on)

A `net.IP` is a byte slice of length 4 or 16, embedded as `List Nat`
with every element below 256. -/

/-- The 12-byte prefix of an IPv4-in-IPv6 mapped address
(Go `v4InV6Prefix`). -/
def v4InV6Prefix : List Nat :=
  [0, 0, 0, 0, 0, 0, 0, 0, 0, 0, 0xff, 0xff]

/-- Models Go `IP.To4`: a 4-byte address is returned as is, a 16-byte
v4-mapped address is narrowed, anything else yields `nil`. -/
def ipTo4 (ip : List Nat) : Option (List Nat) :=
  if ip.length = 4 then some ip
  else if ip.length = 16 && ip.take 12 = v4InV6Prefix then some (ip.drop 12)
  else none

/-- Models Go `IP.To16`: a 4-byte address is widened with `v4InV6Prefix`,
a 16-byte address is returned as is, anything else yields `nil`. -/
def ipTo16 (ip : List Nat) : Option (List Nat) :=
  if ip.length = 4 then some (v4InV6Prefix ++ ip)
  else if ip.length = 16 then some ip
  else none

/-- Models Go `net.CIDRMask(ones, 8*l)` restricted to its byte loop:
`cidrMaskBytes n l` yields `l` mask bytes for `n` leading one bits. -/
def cidrMaskBytes : Nat → Nat → List Nat
  | _, 0 => []
  | n, l + 1 =>
    if 8 ≤ n then 0xff :: cidrMaskBytes (n - 8) l
    else (0xff ^^^ (0xff >>> n)) :: cidrMaskBytes 0 l

/-- The seven private networks of `ip.go` as `(network-number, mask)`
byte pairs, exactly as `net.ParseCIDR` produces them (IPv4 CIDRs carry
4-byte network numbers, IPv6 CIDRs 16-byte ones; the address is already
masked). -/
def privateNetworks : List (List Nat × List Nat) :=
  [ ([127, 0, 0, 0], cidrMaskBytes 8 4),      -- 127.0.0.0/8    IPv4 loopback
    ([10, 0, 0, 0], cidrMaskBytes 8 4),       -- 10.0.0.0/8     RFC1918
    ([172, 16, 0, 0], cidrMaskBytes 12 4),    -- 172.16.0.0/12  RFC1918
    ([192, 168, 0, 0], cidrMaskBytes 16 4),   -- 192.168.0.0/16 RFC1918
    (List.replicate 15 0 ++ [1], cidrMaskBytes 128 16),       -- ::1/128
    (0xfe :: 0x80 :: List.replicate 14 0, cidrMaskBytes 10 16), -- fe80::/10
    (0xfc :: List.replicate 15 0, cidrMaskBytes 7 16) ]       -- fc00::/7

/-- Models Go `(*IPNet).Contains`: narrow the probe to 4 bytes when it is
v4-mapped, require equal lengths, then compare under the mask. -/
def ipnetContains (nn m ip0 : List Nat) : Bool :=
  let ip := match ipTo4 ip0 with
    | some x => x
    | none => ip0
  decide (ip.length = nn.length) &&
    ((nn.zip m).zip ip).all (fun q => decide (q.1.1 &&& q.1.2 = q.2 &&& q.1.2))

/-- Models `IP.IsPrivate` from `ip.go`: membership in any of the seven
private networks. -/
def isPrivate (ip : List Nat) : Bool :=
  privateNetworks.any (fun q => ipnetContains q.1 q.2 ip)

/-! A concrete instantiation of the parse parameter for witnesses: the
IPv4 dotted-quad path of Go 1.12 `net.ParseIP`. -/

/-- Models Go `dtoi`: read a decimal number off the front of the string;
fails on no digits or when the accumulator reaches `0xFFFFFF`. -/
def dtoi : List Char → Nat → Nat → Option (Nat × List Char)
  | [], n, i => if i = 0 then none else some (n, [])
  | c :: cs, n, i =>
    if '0' ≤ c ∧ c ≤ '9' then
      let n' := n * 10 + (c.toNat - '0'.toNat)
      if 0xFFFFFF ≤ n' then none else dtoi cs n' (i + 1)
    else if i = 0 then none else some (n, c :: cs)

/-- Models Go 1.12 `parseIPv4`: four dot-separated decimal fields, each
at most 255, no trailing characters; the result is the 16-byte v4-mapped
form that `net.IPv4` returns. -/
def parseIPv4Fields : Nat → List Char → List Nat → Option (List Nat)
  | 0, s, acc => if s = [] then some acc.reverse else none
  | k + 1, s, acc =>
    let step : List Char → Option (List Nat) := fun s' =>
      match dtoi s' 0 0 with
      | none => none
      | some (n, rest) =>
        if n ≤ 0xFF then parseIPv4Fields k rest (n :: acc) else none
    if acc = [] then step s
    else
      match s with
      | '.' :: s' => step s'
      | _ => none

/-- Models Go `net.ParseIP` restricted to its IPv4 branch (used only to
instantiate the abstract parse parameter in witnesses): the first
separator decides the branch, and only the dotted-quad branch is
modelled, any string reaching a `:` first is treated as unparsed. -/
def goParseIPv4 (s : List Char) : Option (List Nat) :=
  let rec firstSep : List Char → Option Char
    | [] => none
    | c :: cs => if c = '.' ∨ c = ':' then some c else firstSep cs
  match firstSep s with
  | some '.' =>
    match parseIPv4Fields 4 s [] with
    | some bytes => some (v4InV6Prefix ++ bytes)
    | none => none
  | _ => none

/-- Renders a v4-mapped address as a dotted quad (the `IP.String` case
relevant to the witnesses). -/
def ipStrV4 (ip : List Nat) : List Char :=
  match ipTo4 ip with
  | some bs => (String.intercalate "." (bs.map (fun n => toString n))).toList
  | none => []

/-! ## `main.go`: the per-line protocol loop

`main` splits each stdin line on `|`; with fewer than two fields it
prints `OK` and continues; otherwise it collects the parsed, non-private
candidate IPs (remote plus the comma-separated forwarded-for entries,
trimmed), prints `BLOCK` when any of them is blacklisted and `OK`
otherwise.  The loop body sends nothing on `history.RequestChannel()`,
so the list of requests ingested per line is empty on every path. -/

/-- Characters trimmed by Go `strings.TrimSpace` (`unicode.IsSpace`). -/
def isGoSpace (c : Char) : Bool :=
  c = '\t' || c = '\n' || c = Char.ofNat 0x0B || c = Char.ofNat 0x0C ||
  c = '\r' || c = ' ' || c = Char.ofNat 0x85 || c = Char.ofNat 0xA0 ||
  c = Char.ofNat 0x1680 ||
  (Char.ofNat 0x2000 ≤ c && c ≤ Char.ofNat 0x200A) ||
  c = Char.ofNat 0x2028 || c = Char.ofNat 0x2029 || c = Char.ofNat 0x202F ||
  c = Char.ofNat 0x205F || c = Char.ofNat 0x3000

/-- Models Go `strings.TrimSpace`. -/
def goTrimSpace (s : List Char) : List Char :=
  ((s.dropWhile isGoSpace).reverse.dropWhile isGoSpace).reverse

/-- A request as fed to the aggregator (`Request` in `history.go`):
the URL and the IP, the latter already in its string form since every
map in the Go code keys IPs by `To16().String()`. -/
structure GoRequest where
  url : String
  ip : String
deriving DecidableEq, Repr

/-- Candidate IPs of one input line (`main.go`): the parsed, non-private
remote address followed by the parsed, non-private forwarded-for
entries, each rendered with `String()`.  `parse` abstracts
`net.ParseIP` and `ipStr` abstracts `IP.String`, both Go stdlib. -/
def candidates (parse : List Char → Option (List Nat))
    (ipStr : List Nat → List Char) (line : List Char) : List (List Char) :=
  let fields := splitOnChar '|' line
  let remote := fields.getD 0 []
  let xff := fields.getD 1 []
  let remoteC : List (List Char) :=
    match (parse remote).bind ipTo16 with
    | some r => if isPrivate r then [] else [ipStr r]
    | none => []
  let xffC : List (List Char) :=
    (splitOnChar ',' xff).flatMap (fun part =>
      match (parse (goTrimSpace part)).bind ipTo16 with
      | some q => if isPrivate q then [] else [ipStr q]
      | none => [])
  remoteC ++ xffC

/-- One iteration of the stdin loop of `main.go`: the emitted token and
the list of requests handed to the aggregator during that iteration
(the loop body contains no send on `reqChan`, hence the latter is `[]`
on both paths). -/
def processLine (parse : List Char → Option (List Nat))
    (ipStr : List Nat → List Char) (blacklisted : List Char → Bool)
    (line : List Char) : String × List GoRequest :=
  let fields := splitOnChar '|' line
  if fields.length < 2 then ("OK", [])
  else if (candidates parse ipStr line).any blacklisted then ("BLOCK", [])
  else ("OK", [])

/-! ## Sliding-window aggregator (`history.go`)

`IPHistoryItem` buckets live in a `container/list` kept newest-first;
the embedding uses a `List` whose head is the front.  The per-IP map is
an association list with distinct keys (a Go map). -/

/-- A per-slot counter bucket (`IPHistoryItem` / `HistoryItem`). -/
structure Bucket where
  timestamp : Int
  count : Nat
  app : Nat
  other : Nat
deriving DecidableEq, Repr

/-- Models the back-trimming loop shared by `expire` and `calculate`:
repeatedly drop the last bucket while its `Timestamp` is not `After`
the cutoff (`ts ≤ cutoff`), stopping at the first retained one. -/
def trimOld (cutoff : Int) (s : List Bucket) : List Bucket :=
  (s.reverse.dropWhile (fun b => decide (b.timestamp ≤ cutoff))).reverse

/-- `total` accumulated by the counting loop: sum of `Count` over the
retained buckets. -/
def sumCount (s : List Bucket) : Nat :=
  (s.map Bucket.count).sum

/-- `app` accumulated by the counting loop: sum of `App` over the
retained buckets. -/
def sumApp (s : List Bucket) : Nat :=
  (s.map Bucket.app).sum

/-- The block heuristic of `calculate`:
`app > MaxRequests && float64(total)/float64(app) > MaxRatio`, with the
division carried out in `ℚ`. -/
def blockCondB (maxRequests : Nat) (maxRatioQ : ℚ) (total app : Nat) : Bool :=
  decide (maxRequests < app) && decide (maxRatioQ < (total : ℚ) / (app : ℚ))

/-- Per-IP series map: association list keyed by `To16().String()`. -/
abbrev AData := List (String × List Bucket)

/-- Association-list lookup, the `h.data[ip]` read (first hit; keys of a
Go map are distinct). -/
def alookup : AData → String → Option (List Bucket)
  | [], _ => none
  | p :: rest, key => if p.1 = key then some p.2 else alookup rest key

/-- Association-list in-place update of an existing key, the
`h.data[ip] = …` write through a retained reference. -/
def aupdate : AData → String → List Bucket → AData
  | [], _, _ => []
  | p :: rest, key, v => (if p.1 = key then (key, v) else p) :: aupdate rest key v

/-- Association-list removal, the `delete(h.data, ip)` write. -/
def adelete : AData → String → AData
  | [], _ => []
  | p :: rest, key =>
    if p.1 = key then adelete rest key else p :: adelete rest key

/-- One execution of the `process` receive case for one request arriving
while the clock reads `slot`: find or create the IP's series, push a
fresh front bucket when the front's slot differs from the current one,
then bump `Count` and either `Other` (asset match) or `App`. -/
def processStep (slot : Int) (data : AData) (req : GoRequest) : AData :=
  let series : List Bucket := match alookup data req.ip with
    | some l => l
    | none => []
  let series' : List Bucket := match series with
    | [] => [⟨slot, 0, 0, 0⟩]
    | h :: t => if h.timestamp = slot then h :: t else ⟨slot, 0, 0, 0⟩ :: h :: t
  match series' with
  | [] => data
  | h :: t =>
    let h' : Bucket :=
      if assetMatch req.url then ⟨h.timestamp, h.count + 1, h.app, h.other + 1⟩
      else ⟨h.timestamp, h.count + 1, h.app + 1, h.other⟩
    match alookup data req.ip with
    | some _ => aupdate data req.ip (h' :: t)
    | none => (req.ip, h' :: t) :: data

/-- The per-IP body of `IPHistory.calculate` for one drained IP: skip
when the series is gone, otherwise trim old buckets (deleting the IP if
the series empties), total the rest and report whether
`blacklist.Set` is called. -/
def calcOne (cutoff : Int) (maxRequests : Nat) (maxRatioQ : ℚ)
    (data : AData) (ip : String) : AData × Bool :=
  match alookup data ip with
  | none => (data, false)
  | some counts =>
    let t := trimOld cutoff counts
    let data' := if t = [] then adelete data ip else aupdate data ip t
    (data', blockCondB maxRequests maxRatioQ (sumCount t) (sumApp t))

/-- One decision tick of `IPHistory.calculate`: iterate the drained
touched set, returning the final map and the list of IPs passed to
`blacklist.Set`. -/
def calcTick (cutoff : Int) (maxRequests : Nat) (maxRatioQ : ℚ)
    (data : AData) : List String → AData × List String
  | [] => (data, [])
  | ip :: rest =>
    let r1 := calcOne cutoff maxRequests maxRatioQ data ip
    let r2 := calcTick cutoff maxRequests maxRatioQ r1.1 rest
    (r2.1, if r1.2 then ip :: r2.2 else r2.2)

/-- One pass of `IPHistory.expire`: trim every series from the back and
drop IPs whose series becomes empty. -/
def ipExpire (cutoff : Int) : AData → AData
  | [] => []
  | p :: rest =>
    let t := trimOld cutoff p.2
    if t = [] then ipExpire cutoff rest
    else (p.1, t) :: ipExpire cutoff rest

/-- One full iteration of the `IPHistory.expire` loop with its timing
made explicit: the cutoff is computed from the clock at the top of the
loop (`cutoff := time.Now().Add(-1 * window)`, at instant `tSample`),
but the trim itself only runs after the `expireInterval` wait of the
`select`, so the sweep executing at `tSample + expireInterval` trims
with the stale cutoff `tSample - window`. -/
def ipExpireSweep (tSample window : Int) (data : AData) : AData :=
  ipExpire (tSample - window) data

/-! ## TTL eviction cache (`Blacklist`, `src/unnamed/part_002`)

State: the membership map `data` (a hash map, embedded as the list of
its keys, duplicate-free by construction) and the insertion-ordered
expiry list holding `(ip, Expires)` pairs. -/

/-- The blacklist state: `data` (hashmap key set) and `expiry`
(singly-linked list of `blacklistIP` records in insertion order). -/
structure BLState where
  data : List String
  expiry : List (String × Int)
deriving DecidableEq, Repr

/-- The state `NewBlacklist` starts from. -/
def blInit : BLState := ⟨[], []⟩

/-- Membership, `Blacklist.IsBlacklisted`. -/
def blMem (st : BLState) (ip : String) : Bool :=
  decide (ip ∈ st.data)

/-- Models `Blacklist.Set` invoked at instant `now`: a no-op when the IP
is already present, otherwise record it and append
`{IP: ip, Expires: now + ttl}` to the expiry list. -/
def blSet (ttl : Int) (st : BLState) (ip : String) (now : Int) : BLState :=
  if ip ∈ st.data then st
  else ⟨ip :: st.data, st.expiry ++ [(ip, now + ttl)]⟩

/-- The sweep loop of `Blacklist.expire`: inspect the front of the
expiry list; while its `Expires` is `Before(now)` remove it and delete
the IP from `data`, stopping at the first unexpired entry. -/
def blExpireGo (now : Int) : List (String × Int) → List String →
    List (String × Int) × List String
  | [], data => ([], data)
  | (ip, e) :: rest, data =>
    if e < now then blExpireGo now rest (data.erase ip)
    else ((ip, e) :: rest, data)

/-- Models `Blacklist.expire` run at instant `now`. -/
def blExpire (st : BLState) (now : Int) : BLState :=
  let r := blExpireGo now st.expiry st.data
  ⟨r.2, r.1⟩

/-- The externally visible blacklist events: a `Set` call or one run of
the background sweep. -/
inductive BLEvent where
  | set (ip : String)
  | sweep
deriving DecidableEq, Repr

/-- Apply one timed event to the blacklist state. -/
def blStep (ttl : Int) (st : BLState) : Int × BLEvent → BLState
  | (t, BLEvent.set ip) => blSet ttl st ip t
  | (_t, BLEvent.sweep) => blExpire st _t

/-- Run a timed event trace from the freshly constructed blacklist. -/
def blRun (ttl : Int) (evs : List (Int × BLEvent)) : BLState :=
  evs.foldl (blStep ttl) blInit

/-- Every event time is at least `lb` and the times are nondecreasing. -/
def timesLB (lb : Int) : List (Int × BLEvent) → Prop
  | [] => True
  | p :: rest => lb ≤ p.1 ∧ timesLB p.1 rest

/-- Event times are nondecreasing along the trace (a single process
observes a monotone clock). -/
def timesMono : List (Int × BLEvent) → Prop
  | [] => True
  | p :: rest => timesLB p.1 rest

/-- Structural well-formedness of a blacklist state, maintained by the
code: the membership map holds exactly the IPs carried by the expiry
list, the expiry list has pairwise-distinct IPs, and so does the map. -/
def blWF (st : BLState) : Prop :=
  (∀ q, q ∈ st.data ↔ ∃ e, (q, e) ∈ st.expiry) ∧
  (st.expiry.map Prod.fst).Nodup ∧ st.data.Nodup

/-! ## The legacy `History` engine (second half of `history.go`), the one
`cmd/botdetect/main.go` constructs

Its blacklist is a plain map rebuilt from scratch on every tick:
`calculate` walks the whole data map, trims, totals, fills a fresh
blacklist with the qualifying IPs and then replaces `h.blacklist`
wholesale. -/

/-- Legacy `History` state: the per-IP map and the current blacklist
(`Blacklist map[string]bool`, embedded as its key list). -/
structure LegacyHistory where
  data : AData
  blacklist : List String
deriving DecidableEq, Repr

/-- Legacy `History.IsBlacklisted`. -/
def legacyIsBlacklisted (st : LegacyHistory) (ip : String) : Bool :=
  decide (ip ∈ st.blacklist)

/-- The loop body of legacy `History.calculate` over the whole data map:
returns the trimmed map and the fresh blacklist built this tick. -/
def legacyPass (cutoff : Int) (maxRequests : Nat) (maxRatioQ : ℚ) :
    AData → AData × List String
  | [] => ([], [])
  | (ip, s) :: rest =>
    let r := legacyPass cutoff maxRequests maxRatioQ rest
    let t := trimOld cutoff s
    let d' := if t = [] then r.1 else (ip, t) :: r.1
    let b' := if blockCondB maxRequests maxRatioQ (sumCount t) (sumApp t)
      then ip :: r.2 else r.2
    (d', b')

/-- One tick of legacy `History.calculate`: rebuild the data map and
replace the blacklist with the freshly built one (the previous
`h.blacklist` is discarded). -/
def legacyCalculate (cutoff : Int) (maxRequests : Nat) (maxRatioQ : ℚ)
    (st : LegacyHistory) : LegacyHistory :=
  let r := legacyPass cutoff maxRequests maxRatioQ st.data
  ⟨r.1, r.2⟩

/-! ## Helper lemmas on the aggregator -/

/-- A series is well-ordered when bucket timestamps strictly decrease
front to back (spec §3 invariant for per-IP series). -/
abbrev SeriesSorted (s : List Bucket) : Prop :=
  List.Pairwise (fun a b => b.timestamp < a.timestamp) s

theorem hasPrefixB_iff (p s : List Char) :
    hasPrefixB p s = true ↔ ∃ t, s = p ++ t := by
  induction p generalizing s with
  | nil => simp [hasPrefixB]
  | cons a ps ih =>
    cases s with
    | nil =>
      simp [hasPrefixB]
    | cons c cs =>
      simp only [hasPrefixB, Bool.and_eq_true, decide_eq_true_eq, ih,
        List.cons_append, List.cons.injEq]
      constructor
      · rintro ⟨rfl, t, rfl⟩
        exact ⟨t, rfl, rfl⟩
      · rintro ⟨t, rfl, rfl⟩
        exact ⟨rfl, t, rfl⟩

theorem scanAny_iff (pats : List (List Char)) (hne : ∀ p ∈ pats, p ≠ [])
    (s : List Char) :
    scanAny pats s = true ↔ ∃ p ∈ pats, ContainsSeq p s := by
  induction s with
  | nil =>
    constructor
    · intro h
      exact absurd h (by simp [scanAny])
    · rintro ⟨p, hp, pre, post, h⟩
      have h' : pre ++ p ++ post = [] := h.symm
      rw [List.append_assoc, List.append_eq_nil] at h'
      rcases h' with ⟨-, h''⟩
      rw [List.append_eq_nil] at h''
      exact absurd h''.1 (hne p hp)
  | cons c rest ih =>
    simp only [scanAny, Bool.or_eq_true, List.any_eq_true, ih]
    constructor
    · rintro (⟨p, hp, hpre⟩ | ⟨p, hp, pre, post, heq⟩)
      · rcases (hasPrefixB_iff p (c :: rest)).mp hpre with ⟨t, ht⟩
        exact ⟨p, hp, [], t, by simpa using ht⟩
      · exact ⟨p, hp, c :: pre, post, by simp [heq]⟩
    · rintro ⟨p, hp, pre, post, heq⟩
      cases pre with
      | nil =>
        left
        exact ⟨p, hp, (hasPrefixB_iff p (c :: rest)).mpr ⟨post, by simpa using heq⟩⟩
      | cons c' pre' =>
        right
        refine ⟨p, hp, pre', post, ?_⟩
        simp only [List.cons_append] at heq
        injection heq with h1 h2

/-- C9: the asset classifier is a total function returning `asset` exactly
when one of the six case-sensitive patterns occurs anywhere in the string. -/
theorem claim_C9_classifier (url : String) :
    classify url = Classification.asset ↔
      ∃ p ∈ assetPatterns, ContainsSeq p.toList url.toList := by
  have hne : ∀ p ∈ assetPatterns.map String.toList, p ≠ [] := by decide
  have key := scanAny_iff (assetPatterns.map String.toList) hne url.toList
  constructor
  · intro h
    have hm : assetMatch url = true := by
      by_contra hm
      rw [classify, if_neg hm] at h
      simp at h
    rcases key.mp hm with ⟨p, hp, hc⟩
    rcases List.mem_map.mp hp with ⟨q, hq, rfl⟩
    exact ⟨q, hq, hc⟩
  · rintro ⟨q, hq, hc⟩
    have hm : assetMatch url = true :=
      key.mpr ⟨q.toList, List.mem_map_of_mem _ hq, hc⟩
    simp [classify, hm]

theorem dropWhile_le_eq_filter (cutoff : Int) :
    ∀ l : List Bucket, List.Pairwise (fun a b => a.timestamp < b.timestamp) l →
      l.dropWhile (fun b => decide (b.timestamp ≤ cutoff)) =
        l.filter (fun b => decide (cutoff < b.timestamp)) := by
  intro l hl
  induction l with
  | nil => rfl
  | cons a t ih =>
    by_cases ha : a.timestamp ≤ cutoff
    · rw [List.dropWhile_cons_of_pos (by simpa using ha),
        List.filter_cons_of_neg (by simpa using not_lt.mpr ha)]
      exact ih hl.tail
    · rw [List.dropWhile_cons_of_neg (by simpa using ha),
        List.filter_cons_of_pos (by simpa using not_le.mp ha)]
      have : List.filter (fun b => decide (cutoff < b.timestamp)) t = t := by
        rw [List.filter_eq_self]
        intro b hb
        have h1 : a.timestamp < b.timestamp := List.rel_of_pairwise_cons hl hb
        have h2 : cutoff < a.timestamp := not_le.mp ha
        simpa using h2.trans h1
      rw [this]

/-- On a well-ordered series the back-trimming loop removes exactly the
buckets whose slot is at or before the cutoff. -/
theorem trimOld_eq_filter (cutoff : Int) (s : List Bucket)
    (hs : SeriesSorted s) :
    trimOld cutoff s = s.filter (fun b => decide (cutoff < b.timestamp)) := by
  have hrev : List.Pairwise (fun a b => a.timestamp < b.timestamp) s.reverse :=
    List.pairwise_reverse.mpr hs
  rw [trimOld, dropWhile_le_eq_filter cutoff s.reverse hrev,
    List.filter_reverse, List.reverse_reverse]

theorem alookup_aupdate_ne (l : AData) (key k : String) (v : List Bucket)
    (h : k ≠ key) : alookup (aupdate l key v) k = alookup l k := by
  induction l with
  | nil => rfl
  | cons p rest ih =>
    rw [aupdate]
    by_cases hp : p.1 = key
    · rw [if_pos hp, alookup, alookup,
        if_neg (show ¬ (key, v).1 = k from fun hk => h hk.symm),
        if_neg (show ¬ p.1 = k from hp ▸ fun hk => h hk.symm)]
      exact ih
    · rw [if_neg hp, alookup, alookup]
      by_cases hpk : p.1 = k
      · rw [if_pos hpk, if_pos hpk]
      · rw [if_neg hpk, if_neg hpk]
        exact ih

theorem alookup_adelete_ne (l : AData) (key k : String)
    (h : k ≠ key) : alookup (adelete l key) k = alookup l k := by
  induction l with
  | nil => rfl
  | cons p rest ih =>
    rw [adelete]
    by_cases hp : p.1 = key
    · rw [if_pos hp, alookup,
        if_neg (show ¬ p.1 = k from hp ▸ fun hk => h hk.symm)]
      exact ih
    · rw [if_neg hp, alookup, alookup]
      by_cases hpk : p.1 = k
      · rw [if_pos hpk, if_pos hpk]
      · rw [if_neg hpk, if_neg hpk]
        exact ih

/-- `calcOne` touches only the entry of the IP it processes. -/
theorem calcOne_lookup_ne (cutoff : Int) (maxRequests : Nat) (maxRatioQ : ℚ)
    (data : AData) (ip k : String) (h : k ≠ ip) :
    alookup (calcOne cutoff maxRequests maxRatioQ data ip).1 k = alookup data k := by
  rw [calcOne]
  cases alookup data ip with
  | none => rfl
  | some counts =>
    simp only
    by_cases ht : trimOld cutoff counts = []
    · rw [if_pos ht]
      exact alookup_adelete_ne data ip k h
    · rw [if_neg ht]
      exact alookup_aupdate_ne data ip k (trimOld cutoff counts) h

/-- Every IP passed to `blacklist.Set` during a tick comes from the
drained touched set. -/
theorem calcTick_calls_subset (cutoff : Int) (maxRequests : Nat)
    (maxRatioQ : ℚ) (data : AData) (drained : List String) :
    ∀ ip ∈ (calcTick cutoff maxRequests maxRatioQ data drained).2, ip ∈ drained := by
  induction drained generalizing data with
  | nil => intro ip h; exact absurd h (by simp [calcTick])
  | cons q rest ih =>
    intro ip h
    rw [calcTick] at h
    simp only at h
    by_cases hq : (calcOne cutoff maxRequests maxRatioQ data q).2
    · rw [if_pos hq] at h
      rcases List.mem_cons.mp h with h | h
      · exact h ▸ List.mem_cons_self q rest
      · exact List.mem_cons_of_mem q (ih _ ip h)
    · rw [if_neg hq] at h
      exact List.mem_cons_of_mem q (ih _ ip h)

/-! ## Claim theorems for the protocol loop -/

/-- C1 (code bug evidence): on the well-formed line
`8.8.8.8|9.9.9.9|/index.html` the per-line loop of `main.go` finds two
parsed, non-private candidate IPs, yet hands zero requests to the
aggregator: the loop body never sends on `history.RequestChannel()` and
never reads a `PATH` field, so no classified Request is ever ingested. -/
theorem claim_C1_no_ingestion :
    (candidates goParseIPv4 ipStrV4
      ("8.8.8.8|9.9.9.9|/index.html".toList)).length = 2 ∧
    (processLine goParseIPv4 ipStrV4 (fun _ => false)
      ("8.8.8.8|9.9.9.9|/index.html".toList)).2 = [] := by
  constructor
  · rfl
  · rfl

/-- C2: each input line yields exactly one token, `OK` or `BLOCK`;
`BLOCK` appears exactly when the line has at least two fields and some
parsed, non-private candidate IP is blacklisted; a line with fewer than
two fields yields `OK` and feeds nothing to any IP's series.  The
theorem is uniform in the stdlib parsing and rendering functions and in
the blacklist contents. -/
theorem claim_C2_line_protocol (parse : List Char → Option (List Nat))
    (ipStr : List Nat → List Char) (blacklisted : List Char → Bool)
    (line : List Char) :
    ((processLine parse ipStr blacklisted line).1 = "OK" ∨
      (processLine parse ipStr blacklisted line).1 = "BLOCK") ∧
    ((processLine parse ipStr blacklisted line).1 = "BLOCK" ↔
      (2 ≤ (splitOnChar '|' line).length ∧
        ∃ c ∈ candidates parse ipStr line, blacklisted c = true)) ∧
    ((splitOnChar '|' line).length < 2 →
      (processLine parse ipStr blacklisted line).1 = "OK" ∧
      (processLine parse ipStr blacklisted line).2 = []) := by
  rw [processLine]
  by_cases hlen : (splitOnChar '|' line).length < 2
  · rw [if_pos hlen]
    refine ⟨Or.inl rfl, ?_, fun _ => ⟨rfl, rfl⟩⟩
    constructor
    · intro h
      exact absurd h (by decide)
    · rintro ⟨h12, -⟩
      omega
  · rw [if_neg hlen]
    by_cases hany : (candidates parse ipStr line).any blacklisted
    · rw [if_pos hany]
      refine ⟨Or.inr rfl, ?_, fun h => absurd h hlen⟩
      simp only [true_iff]
      exact ⟨not_lt.mp hlen, List.any_eq_true.mp hany⟩
    · rw [if_neg hany]
      refine ⟨Or.inl rfl, ?_, fun h => absurd h hlen⟩
      constructor
      · intro h; exact absurd h (by decide)
      · rintro ⟨-, hc⟩
        exact absurd (List.any_eq_true.mpr hc) hany

/-- C6: `Blacklist.Set` on an already-present IP leaves the state
entirely unchanged — no refreshed expiry, no second expiry entry. -/
theorem claim_C6_set_idempotent (ttl : Int) (st : BLState) (ip : String)
    (now : Int) (h : ip ∈ st.data) :
    blSet ttl st ip now = st := by
  rw [blSet, if_pos h]

/-- Witness for C6 at a concrete state. -/
theorem claim_C6_set_idempotent_witness :
    "a" ∈ (BLState.mk ["a"] [("a", 5)]).data ∧
      blSet 10 (BLState.mk ["a"] [("a", 5)]) "a" 100 =
        BLState.mk ["a"] [("a", 5)] :=
  ⟨by decide, claim_C6_set_idempotent 10 (BLState.mk ["a"] [("a", 5)]) "a" 100
    (by decide)⟩

/-- C10: one tick of the legacy `History.calculate` (the engine built by
`cmd/botdetect/main.go`) leaves the blacklist holding exactly the IPs
whose trimmed windowed counts satisfy the block condition at that tick;
the previous blacklist is discarded wholesale, so a previously
blacklisted IP that no longer qualifies is unblacklisted immediately. -/
theorem claim_C10_blacklist_replaced (cutoff : Int) (maxRequests : Nat)
    (maxRatioQ : ℚ) (st : LegacyHistory) (ip : String) :
    (legacyIsBlacklisted (legacyCalculate cutoff maxRequests maxRatioQ st) ip = true ↔
      ∃ s, (ip, s) ∈ st.data ∧
        blockCondB maxRequests maxRatioQ
          (sumCount (trimOld cutoff s)) (sumApp (trimOld cutoff s)) = true) ∧
    legacyCalculate cutoff maxRequests maxRatioQ st =
      legacyCalculate cutoff maxRequests maxRatioQ ⟨st.data, []⟩ := by
  constructor
  · rw [legacyIsBlacklisted, legacyCalculate]
    simp only [decide_eq_true_eq]
    induction st.data with
    | nil => simp [legacyPass]
    | cons p rest ih =>
      rcases p with ⟨q, s⟩
      rw [legacyPass]
      simp only [List.mem_cons]
      by_cases hc : blockCondB maxRequests maxRatioQ
          (sumCount (trimOld cutoff s)) (sumApp (trimOld cutoff s)) = true
      · rw [if_pos hc]
        constructor
        · intro h
          rcases List.mem_cons.mp h with h | h
          · exact ⟨s, Or.inl (by rw [h]), hc⟩
          · rcases ih.mp h with ⟨s', hs', hcs'⟩
            exact ⟨s', Or.inr hs', hcs'⟩
        · rintro ⟨s', hq, hcs'⟩
          rcases hq with hq | hq
          · have h1 : ip = q := congrArg Prod.fst hq
            rw [h1]
            exact List.mem_cons_self q _
          · exact List.mem_cons_of_mem q (ih.mpr ⟨s', hq, hcs'⟩)
      · rw [if_neg hc]
        constructor
        · intro h
          rcases ih.mp h with ⟨s', hs', hcs'⟩
          exact ⟨s', Or.inr hs', hcs'⟩
        · rintro ⟨s', hq, hcs'⟩
          rcases hq with hq | hq
          · have h2 : s' = s := congrArg Prod.snd hq
            rw [h2] at hcs'
            exact absurd hcs' hc
          · exact ih.mpr ⟨s', hq, hcs'⟩
  · rfl

/-! ## Further aggregator helper lemmas -/

theorem mem_of_mem_trimOld (cutoff : Int) (s : List Bucket) (b : Bucket)
    (h : b ∈ trimOld cutoff s) : b ∈ s := by
  rw [trimOld, List.mem_reverse] at h
  have hsub : (s.reverse.dropWhile
      (fun b => decide (b.timestamp ≤ cutoff))).Sublist s.reverse :=
    List.dropWhile_sublist _
  exact List.mem_reverse.mp (hsub.mem h)

theorem sumApp_le_sumCount (s : List Bucket)
    (h : ∀ b ∈ s, b.app ≤ b.count) : sumApp s ≤ sumCount s := by
  induction s with
  | nil => exact le_refl 0
  | cons b t ih =>
    rw [sumApp, sumCount, List.map_cons, List.map_cons, List.sum_cons,
      List.sum_cons]
    exact Nat.add_le_add (h b (List.mem_cons_self b t))
      (ih (fun x hx => h x (List.mem_cons_of_mem b hx)))

theorem filter_length_split {α : Type} (p : α → Bool) (l : List α) :
    (l.filter p).length + (l.filter (fun x => ! p x)).length = l.length := by
  induction l with
  | nil => rfl
  | cons a t ih =>
    rw [List.filter_cons, List.filter_cons]
    by_cases ha : p a
    · rw [if_pos ha, if_neg (by simp [ha])]
      simp only [List.length_cons]
      omega
    · rw [if_neg (by simpa using ha), if_pos (by simpa using ha)]
      simp only [List.length_cons]
      omega

theorem alookup_aupdate_self (l : AData) (key : String) (v w : List Bucket)
    (h : alookup l key = some w) : alookup (aupdate l key v) key = some v := by
  induction l with
  | nil => exact absurd h (by rw [alookup]; exact Option.noConfusion)
  | cons p rest ih =>
    rw [aupdate]
    by_cases hp : p.1 = key
    · rw [if_pos hp, alookup, if_pos rfl]
    · rw [if_neg hp, alookup, if_neg hp]
      rw [alookup, if_neg hp] at h
      exact ih h

theorem alookup_eq_none_iff (l : AData) (k : String) :
    alookup l k = none ↔ k ∉ l.map Prod.fst := by
  induction l with
  | nil => simp [alookup]
  | cons p rest ih =>
    rw [alookup, List.map_cons]
    by_cases hp : p.1 = k
    · rw [if_pos hp]
      simp [hp]
    · rw [if_neg hp, ih]
      constructor
      · intro h hmem
        rcases List.mem_cons.mp hmem with hmem | hmem
        · exact hp hmem.symm
        · exact h hmem
      · intro h hmem
        exact h (List.mem_cons_of_mem _ hmem)

theorem ipExpire_lookup_none (cutoff : Int) (l : AData) (k : String)
    (h : alookup l k = none) : alookup (ipExpire cutoff l) k = none := by
  induction l with
  | nil => rfl
  | cons p rest ih =>
    rw [alookup] at h
    by_cases hp : p.1 = k
    · rw [if_pos hp] at h
      exact Option.noConfusion h
    · rw [if_neg hp] at h
      rw [ipExpire]
      by_cases ht : trimOld cutoff p.2 = []
      · rw [if_pos ht]
        exact ih h
      · rw [if_neg ht, alookup, if_neg hp]
        exact ih h

/-! ## Claim theorems for the aggregator and decision loop -/

/-- C3: during a decision tick, a drained IP whose series is still
present is passed to `blacklist.Set` exactly when its windowed counts
(over the buckets retained after trimming those at or before
`now - window`) satisfy `app > max_requests` and `total/app > max_ratio`. -/
theorem claim_C3_decision_tick (cutoff : Int) (maxRequests : Nat)
    (maxRatioQ : ℚ) (data : AData) (drained : List String) (ip : String)
    (counts : List Bucket) (hnd : drained.Nodup) (hmem : ip ∈ drained)
    (hpres : alookup data ip = some counts) (hs : SeriesSorted counts) :
    ip ∈ (calcTick cutoff maxRequests maxRatioQ data drained).2 ↔
      (maxRequests <
          sumApp (counts.filter (fun b => decide (cutoff < b.timestamp))) ∧
        maxRatioQ <
          (sumCount (counts.filter
              (fun b => decide (cutoff < b.timestamp))) : ℚ) /
            (sumApp (counts.filter
              (fun b => decide (cutoff < b.timestamp))) : ℚ)) := by
  induction drained generalizing data with
  | nil => cases hmem
  | cons q rest ih =>
    rw [calcTick]
    simp only
    rcases List.mem_cons.mp hmem with rfl | hmem'
    · have hnotin : ip ∉ rest := (List.nodup_cons.mp hnd).1
      have hco : (calcOne cutoff maxRequests maxRatioQ data ip).2 =
          blockCondB maxRequests maxRatioQ
            (sumCount (trimOld cutoff counts)) (sumApp (trimOld cutoff counts)) := by
        rw [calcOne, hpres]
      have hnocall : ip ∉ (calcTick cutoff maxRequests maxRatioQ
          (calcOne cutoff maxRequests maxRatioQ data ip).1 rest).2 :=
        fun hin => hnotin (calcTick_calls_subset _ _ _ _ _ ip hin)
      rw [trimOld_eq_filter cutoff counts hs] at hco
      by_cases hcond : blockCondB maxRequests maxRatioQ
          (sumCount (counts.filter (fun b => decide (cutoff < b.timestamp))))
          (sumApp (counts.filter (fun b => decide (cutoff < b.timestamp)))) = true
      · rw [hco, hcond, if_pos rfl]
        simp only [List.mem_cons, true_or, true_iff]
        · have := hcond
          rw [blockCondB, Bool.and_eq_true, decide_eq_true_eq,
            decide_eq_true_eq] at this
          exact ⟨this.1, this.2⟩
      · rw [hco]
        rw [Bool.not_eq_true] at hcond
        rw [hcond, if_neg (by simp)]
        constructor
        · intro hin
          exact absurd hin hnocall
        · intro hc
          have : blockCondB maxRequests maxRatioQ
              (sumCount (counts.filter (fun b => decide (cutoff < b.timestamp))))
              (sumApp (counts.filter (fun b => decide (cutoff < b.timestamp)))) = true := by
            rw [blockCondB, Bool.and_eq_true]
            exact ⟨decide_eq_true hc.1, decide_eq_true hc.2⟩
          rw [this] at hcond
          exact Bool.noConfusion hcond
    · have hqne : q ≠ ip := fun h => (List.nodup_cons.mp hnd).1 (h ▸ hmem')
      have hpres' : alookup (calcOne cutoff maxRequests maxRatioQ data q).1 ip =
          some counts := by
        rw [calcOne_lookup_ne cutoff maxRequests maxRatioQ data q ip hqne.symm]
        exact hpres
      have hiff := ih (calcOne cutoff maxRequests maxRatioQ data q).1
        (List.Nodup.of_cons hnd) hmem' hpres'
      by_cases hq2 : (calcOne cutoff maxRequests maxRatioQ data q).2
      · rw [hq2, if_pos rfl]
        rw [← hiff]
        constructor
        · intro hin
          rcases List.mem_cons.mp hin with h | h
          · exact absurd h.symm hqne
          · exact h
        · exact fun h => List.mem_cons_of_mem q h
      · rw [Bool.not_eq_true] at hq2
        rw [hq2, if_neg (by simp)]
        exact hiff

/-- Witness for C3: the spec scenario of 40 application and 2 asset
requests in one bucket with `max_requests = 30`, `max_ratio = 0.85`. -/
theorem claim_C3_decision_tick_witness :
    "203.0.113.5" ∈ (calcTick 50 30 (17/20 : ℚ)
        [("203.0.113.5", [⟨100, 42, 40, 2⟩])] ["203.0.113.5"]).2 ↔
      (30 < sumApp (([⟨100, 42, 40, 2⟩] : List Bucket).filter
          (fun b => decide ((50 : Int) < b.timestamp))) ∧
        (17/20 : ℚ) <
          (sumCount (([⟨100, 42, 40, 2⟩] : List Bucket).filter
              (fun b => decide ((50 : Int) < b.timestamp))) : ℚ) /
            (sumApp (([⟨100, 42, 40, 2⟩] : List Bucket).filter
              (fun b => decide ((50 : Int) < b.timestamp))) : ℚ)) :=
  claim_C3_decision_tick 50 30 (17/20 : ℚ)
    [("203.0.113.5", [⟨100, 42, 40, 2⟩])] ["203.0.113.5"] "203.0.113.5"
    [⟨100, 42, 40, 2⟩] (by decide) (by decide) (by rfl) (by decide)

/-- C4: with well-formed buckets (`Count = App + Other`), an IP with at
least one application request in the retained window has
`total/app ≥ 1`; hence whenever `max_ratio < 1` the block condition
degenerates to `app > max_requests` alone. -/
theorem claim_C4_ratio_at_least_one (cutoff : Int) (maxRequests : Nat)
    (maxRatioQ : ℚ) (s : List Bucket)
    (hwf : ∀ b ∈ s, b.count = b.app + b.other) :
    (1 ≤ sumApp (trimOld cutoff s) →
      (1 : ℚ) ≤ (sumCount (trimOld cutoff s) : ℚ) /
        (sumApp (trimOld cutoff s) : ℚ)) ∧
    (maxRatioQ < 1 →
      (blockCondB maxRequests maxRatioQ
          (sumCount (trimOld cutoff s)) (sumApp (trimOld cutoff s)) = true ↔
        maxRequests < sumApp (trimOld cutoff s))) := by
  have hle : sumApp (trimOld cutoff s) ≤ sumCount (trimOld cutoff s) := by
    refine sumApp_le_sumCount _ (fun b hb => ?_)
    rw [hwf b (mem_of_mem_trimOld cutoff s b hb)]
    exact Nat.le_add_right _ _
  have hratio : 1 ≤ sumApp (trimOld cutoff s) →
      (1 : ℚ) ≤ (sumCount (trimOld cutoff s) : ℚ) /
        (sumApp (trimOld cutoff s) : ℚ) := by
    intro happ
    rw [one_le_div (by exact_mod_cast happ)]
    exact_mod_cast hle
  refine ⟨hratio, fun hmr => ?_⟩
  constructor
  · intro h
    rw [blockCondB, Bool.and_eq_true, decide_eq_true_eq] at h
    exact h.1
  · intro h
    rw [blockCondB, Bool.and_eq_true]
    refine ⟨decide_eq_true h, decide_eq_true ?_⟩
    exact lt_of_lt_of_le hmr (hratio (by omega))

/-- Witness for C4 at the spec's 40/2 bucket with `max_ratio = 0.85`. -/
theorem claim_C4_ratio_at_least_one_witness :
    (1 ≤ sumApp (trimOld 50 [⟨100, 42, 40, 2⟩]) →
      (1 : ℚ) ≤ (sumCount (trimOld 50 [⟨100, 42, 40, 2⟩]) : ℚ) /
        (sumApp (trimOld 50 [⟨100, 42, 40, 2⟩]) : ℚ)) ∧
    ((17/20 : ℚ) < 1 →
      (blockCondB 30 (17/20 : ℚ) (sumCount (trimOld 50 [⟨100, 42, 40, 2⟩]))
          (sumApp (trimOld 50 [⟨100, 42, 40, 2⟩])) = true ↔
        30 < sumApp (trimOld 50 [⟨100, 42, 40, 2⟩]))) :=
  claim_C4_ratio_at_least_one 50 30 (17/20 : ℚ) [⟨100, 42, 40, 2⟩] (by decide)

/-- On a well-ordered series present under distinct keys, one `ipExpire`
pass leaves exactly the buckets whose slot is strictly after the cutoff
it was invoked with, deleting the IP when none remain. -/
theorem alookup_ipExpire (cutoff : Int) (data : AData) (ip : String)
    (s : List Bucket) (hs : SeriesSorted s)
    (hnd : (data.map Prod.fst).Nodup) (hpres : alookup data ip = some s) :
    alookup (ipExpire cutoff data) ip =
      (if s.filter (fun b => decide (cutoff < b.timestamp)) = [] then none
       else some (s.filter (fun b => decide (cutoff < b.timestamp)))) := by
  induction data with
  | nil => exact absurd hpres (by rw [alookup]; exact Option.noConfusion)
  | cons p rest ih =>
    rw [alookup] at hpres
    rw [ipExpire]
    by_cases hp : p.1 = ip
    · rw [if_pos hp] at hpres
      have hps : p.2 = s := Option.some.inj hpres
      have hnone : alookup rest ip = none := by
        rw [alookup_eq_none_iff]
        rw [List.map_cons, List.nodup_cons] at hnd
        exact hp ▸ hnd.1
      rw [hps, trimOld_eq_filter cutoff s hs]
      by_cases ht : s.filter (fun b => decide (cutoff < b.timestamp)) = []
      · rw [if_pos ht, if_pos ht]
        exact ipExpire_lookup_none cutoff rest ip hnone
      · rw [if_neg ht, if_neg ht, alookup, if_pos hp]
    · rw [if_neg hp] at hpres
      have hnd' : (rest.map Prod.fst).Nodup := by
        rw [List.map_cons, List.nodup_cons] at hnd
        exact hnd.2
      by_cases ht : trimOld cutoff p.2 = []
      · rw [if_pos ht]
        exact ih hnd' hpres
      · rw [if_neg ht, alookup, if_neg hp]
        exact ih hnd' hpres

/-- C7 (counterexample): the background sweep does not remove every
bucket whose slot is at or before `now - window` at the time the sweep
executes.  `IPHistory.expire` samples its cutoff at the top of the loop
and only then waits `expireInterval`: with `window = 10` and
`expire_interval = 5`, a cutoff sampled at time 100 is applied by the
trim running at time 105, and the bucket at slot 92 — by then
105 − 92 = 13 > 10 time units old — survives the sweep because it is
compared against the stale cutoff 100 − 10 = 90. -/
theorem claim_C7_sweep_counterexample :
    (10 : Int) < (100 + 5) - 92 ∧
    alookup (ipExpireSweep 100 10 [("a", [⟨92, 1, 1, 0⟩])]) "a" =
      some [⟨92, 1, 1, 0⟩] :=
  ⟨by decide, by decide⟩

/-- C7 (amended): on a well-ordered series, every bucket the decision
tick sums after trimming has its slot strictly after the cutoff the
tick computed from its own clock reading, and the background sweep
removes exactly the buckets at or before `tSample - window`, where
`tSample` is the loop-top instant at which the sweep's cutoff was
sampled — `expire_interval` before the trim executes — deleting the IP
when no bucket remains. -/
theorem claim_C7_window_trimming_amended (cutoff tSample window : Int)
    (data : AData) (ip : String) (s : List Bucket) (hs : SeriesSorted s)
    (hnd : (data.map Prod.fst).Nodup) (hpres : alookup data ip = some s) :
    (∀ b ∈ trimOld cutoff s, cutoff < b.timestamp) ∧
    alookup (ipExpireSweep tSample window data) ip =
      (if s.filter (fun b => decide (tSample - window < b.timestamp)) = []
       then none
       else some (s.filter
         (fun b => decide (tSample - window < b.timestamp)))) := by
  constructor
  · intro b hb
    rw [trimOld_eq_filter cutoff s hs] at hb
    exact of_decide_eq_true (List.mem_filter.mp hb).2
  · exact alookup_ipExpire (tSample - window) data ip s hs hnd hpres

/-- Witness for the amended C7: a sweep sampled at 100 with window 10
over a series holding one surviving and one expired bucket. -/
theorem claim_C7_window_trimming_amended_witness :
    (∀ b ∈ trimOld 95 [⟨92, 1, 1, 0⟩, ⟨80, 2, 1, 1⟩],
      (95 : Int) < b.timestamp) ∧
    alookup (ipExpireSweep 100 10 [("a", [⟨92, 1, 1, 0⟩, ⟨80, 2, 1, 1⟩])]) "a" =
      (if ([⟨92, 1, 1, 0⟩, ⟨80, 2, 1, 1⟩] : List Bucket).filter
          (fun b => decide ((100 : Int) - 10 < b.timestamp)) = [] then none
       else some (([⟨92, 1, 1, 0⟩, ⟨80, 2, 1, 1⟩] : List Bucket).filter
          (fun b => decide ((100 : Int) - 10 < b.timestamp)))) :=
  claim_C7_window_trimming_amended 95 100 10
    [("a", [⟨92, 1, 1, 0⟩, ⟨80, 2, 1, 1⟩])] "a"
    [⟨92, 1, 1, 0⟩, ⟨80, 2, 1, 1⟩] (by decide) (by decide) (by rfl)

/-! ## Ingestion lemmas for C8 -/

theorem processStep_same_slot (slot : Int) (data : AData) (r : GoRequest)
    (c a b : Nat) (t : List Bucket)
    (hpres : alookup data r.ip = some (⟨slot, c, a, b⟩ :: t)) :
    processStep slot data r = aupdate data r.ip
      ((if assetMatch r.url then (⟨slot, c + 1, a, b + 1⟩ : Bucket)
        else ⟨slot, c + 1, a + 1, b⟩) :: t) := by
  rw [processStep, hpres]
  simp only []
  by_cases hm : assetMatch r.url
  · simp [hm]
  · simp [hm]

theorem processStep_new (slot : Int) (data : AData) (r : GoRequest)
    (habs : alookup data r.ip = none) :
    processStep slot data r =
      (r.ip, [(if assetMatch r.url then (⟨slot, 1, 0, 1⟩ : Bucket)
        else ⟨slot, 1, 1, 0⟩)]) :: data := by
  rw [processStep, habs]

theorem processFold_head (slot : Int) (ip : String) (reqs : List GoRequest)
    (hip : ∀ r ∈ reqs, r.ip = ip) :
    ∀ (data : AData) (c a b : Nat) (t : List Bucket),
      alookup data ip = some (⟨slot, c, a, b⟩ :: t) →
      alookup (reqs.foldl (processStep slot) data) ip =
        some (⟨slot, c + reqs.length,
          a + (reqs.filter (fun r => ! assetMatch r.url)).length,
          b + (reqs.filter (fun r => assetMatch r.url)).length⟩ :: t) := by
  induction reqs with
  | nil =>
    intro data c a b t h
    simpa using h
  | cons r rs ih =>
    intro data c a b t h
    have hrip : r.ip = ip := hip r (List.mem_cons_self r rs)
    have hip' : ∀ x ∈ rs, x.ip = ip := fun x hx => hip x (List.mem_cons_of_mem r hx)
    rw [← hrip] at h
    rw [List.foldl_cons]
    by_cases hm : assetMatch r.url
    · have hstep := processStep_same_slot slot data r c a b t h
      rw [if_pos hm] at hstep
      have h2 : alookup (processStep slot data r) ip =
          some (⟨slot, c + 1, a, b + 1⟩ :: t) := by
        rw [hstep, hrip]
        exact alookup_aupdate_self data ip _ _ (hrip ▸ h)
      have h3 := ih hip' (processStep slot data r) (c + 1) a (b + 1) t h2
      rw [h3]
      simp [hm, List.filter_cons, Bucket.mk.injEq]
      omega
    · have hstep := processStep_same_slot slot data r c a b t h
      rw [if_neg hm] at hstep
      have h2 : alookup (processStep slot data r) ip =
          some (⟨slot, c + 1, a + 1, b⟩ :: t) := by
        rw [hstep, hrip]
        exact alookup_aupdate_self data ip _ _ (hrip ▸ h)
      have h3 := ih hip' (processStep slot data r) (c + 1) (a + 1) b t h2
      rw [h3]
      simp [hm, List.filter_cons, Bucket.mk.injEq]
      omega

theorem trimOld_keep_singleton (cutoff : Int) (bkt : Bucket)
    (h : cutoff < bkt.timestamp) : trimOld cutoff [bkt] = [bkt] := by
  rw [trimOld, List.reverse_singleton,
    List.dropWhile_cons_of_neg (by simpa using not_le.mpr h),
    List.reverse_singleton]

/-- C8: starting from a state without the IP, ingesting a batch of
requests for it during one time slot leaves exactly one bucket, whose
totals are `total = n + m` and `app = n`, `n` the application-classified
and `m` the asset-classified requests (the trimming cutoff not reaching
the slot). -/
theorem claim_C8_single_slot_totals (slot cutoff : Int) (ip : String)
    (data : AData) (reqs : List GoRequest)
    (hip : ∀ r ∈ reqs, r.ip = ip) (habs : alookup data ip = none)
    (hcut : cutoff < slot) :
    sumCount (trimOld cutoff
        ((alookup (reqs.foldl (processStep slot) data) ip).getD [])) =
      (reqs.filter (fun r => ! assetMatch r.url)).length +
        (reqs.filter (fun r => assetMatch r.url)).length ∧
    sumApp (trimOld cutoff
        ((alookup (reqs.foldl (processStep slot) data) ip).getD [])) =
      (reqs.filter (fun r => ! assetMatch r.url)).length := by
  cases reqs with
  | nil =>
    rw [List.foldl_nil, habs]
    exact ⟨rfl, rfl⟩
  | cons r rs =>
    have hrip : r.ip = ip := hip r (List.mem_cons_self r rs)
    have hip' : ∀ x ∈ rs, x.ip = ip := fun x hx => hip x (List.mem_cons_of_mem r hx)
    rw [List.foldl_cons, processStep_new slot data r (hrip ▸ habs)]
    by_cases hm : assetMatch r.url
    · have h1 : alookup ((r.ip, [(if assetMatch r.url
          then (⟨slot, 1, 0, 1⟩ : Bucket) else ⟨slot, 1, 1, 0⟩)]) :: data) ip =
          some (⟨slot, 1, 0, 1⟩ :: []) := by
        rw [alookup, if_pos hrip, if_pos hm]
      rw [processFold_head slot ip rs hip' _ 1 0 1 [] h1,
        Option.getD_some,
        trimOld_keep_singleton cutoff _ (by exact hcut)]
      have hsplit : (rs.filter (fun r => assetMatch r.url)).length +
          (rs.filter (fun r => ! assetMatch r.url)).length = rs.length :=
        filter_length_split (fun r => assetMatch r.url) rs
      rw [sumCount, sumApp]
      simp [hm, List.filter_cons]
      omega
    · have h1 : alookup ((r.ip, [(if assetMatch r.url
          then (⟨slot, 1, 0, 1⟩ : Bucket) else ⟨slot, 1, 1, 0⟩)]) :: data) ip =
          some (⟨slot, 1, 1, 0⟩ :: []) := by
        rw [alookup, if_pos hrip, if_neg hm]
      rw [processFold_head slot ip rs hip' _ 1 1 0 [] h1,
        Option.getD_some,
        trimOld_keep_singleton cutoff _ (by exact hcut)]
      have hsplit : (rs.filter (fun r => assetMatch r.url)).length +
          (rs.filter (fun r => ! assetMatch r.url)).length = rs.length :=
        filter_length_split (fun r => assetMatch r.url) rs
      rw [sumCount, sumApp]
      simp [hm, List.filter_cons]
      omega

/-- Witness for C8: two application requests and one asset request for
one IP in slot 100. -/
theorem claim_C8_single_slot_totals_witness :
    sumCount (trimOld 50 ((alookup
        (([⟨"/a", "1.2.3.4"⟩, ⟨"/b.css", "1.2.3.4"⟩, ⟨"/c", "1.2.3.4"⟩] :
            List GoRequest).foldl (processStep 100) []) "1.2.3.4").getD [])) =
      (([⟨"/a", "1.2.3.4"⟩, ⟨"/b.css", "1.2.3.4"⟩, ⟨"/c", "1.2.3.4"⟩] :
          List GoRequest).filter (fun r => ! assetMatch r.url)).length +
        (([⟨"/a", "1.2.3.4"⟩, ⟨"/b.css", "1.2.3.4"⟩, ⟨"/c", "1.2.3.4"⟩] :
          List GoRequest).filter (fun r => assetMatch r.url)).length ∧
    sumApp (trimOld 50 ((alookup
        (([⟨"/a", "1.2.3.4"⟩, ⟨"/b.css", "1.2.3.4"⟩, ⟨"/c", "1.2.3.4"⟩] :
            List GoRequest).foldl (processStep 100) []) "1.2.3.4").getD [])) =
      (([⟨"/a", "1.2.3.4"⟩, ⟨"/b.css", "1.2.3.4"⟩, ⟨"/c", "1.2.3.4"⟩] :
          List GoRequest).filter (fun r => ! assetMatch r.url)).length :=
  claim_C8_single_slot_totals 100 50 "1.2.3.4" []
    [⟨"/a", "1.2.3.4"⟩, ⟨"/b.css", "1.2.3.4"⟩, ⟨"/c", "1.2.3.4"⟩]
    (by decide) (by rfl) (by decide)

/-! ## TTL blacklist lemmas for C5 -/

theorem mem_keys_iff (l : List (String × Int)) (q : String) :
    q ∈ l.map Prod.fst ↔ ∃ e, (q, e) ∈ l := by
  rw [List.mem_map]
  constructor
  · rintro ⟨p, hp, rfl⟩
    exact ⟨p.2, hp⟩
  · rintro ⟨e, he⟩
    exact ⟨(q, e), he, rfl⟩

theorem blExpireGo_expiry_sublist (now : Int) :
    ∀ (exp : List (String × Int)) (data : List String),
      (blExpireGo now exp data).1.Sublist exp := by
  intro exp
  induction exp with
  | nil => intro data; exact List.Sublist.refl _
  | cons p rest ih =>
    intro data
    rcases p with ⟨q, e⟩
    rw [blExpireGo]
    by_cases h : e < now
    · rw [if_pos h]
      exact (ih (data.erase q)).cons (q, e)
    · rw [if_neg h]

theorem blExpireGo_data_subset (now : Int) :
    ∀ (exp : List (String × Int)) (data : List String) (x : String),
      x ∈ (blExpireGo now exp data).2 → x ∈ data := by
  intro exp
  induction exp with
  | nil => intro data x hx; exact hx
  | cons p rest ih =>
    intro data x hx
    rcases p with ⟨q, e⟩
    rw [blExpireGo] at hx
    by_cases h : e < now
    · rw [if_pos h] at hx
      exact List.mem_of_mem_erase (ih (data.erase q) x hx)
    · rw [if_neg h] at hx
      exact hx

theorem blExpireGo_keeps (now : Int) :
    ∀ (exp : List (String × Int)) (data : List String) (ip : String) (e : Int),
      (ip, e) ∈ exp → now ≤ e → (exp.map Prod.fst).Nodup → ip ∈ data →
      ((ip, e) ∈ (blExpireGo now exp data).1 ∧
        ip ∈ (blExpireGo now exp data).2) := by
  intro exp
  induction exp with
  | nil => intro data ip e hm; cases hm
  | cons p rest ih =>
    intro data ip e hm hnow hkeys hd
    rcases p with ⟨q, e0⟩
    rw [blExpireGo]
    rcases List.mem_cons.mp hm with heq | hm'
    · have hq : q = ip := (congrArg Prod.fst heq).symm
      have he0 : e0 = e := (congrArg Prod.snd heq).symm
      rw [if_neg (by rw [he0]; exact not_lt.mpr hnow)]
      exact ⟨heq ▸ List.mem_cons_self _ _, hd⟩
    · by_cases h0 : e0 < now
      · rw [if_pos h0]
        have hipk : ip ∈ rest.map Prod.fst := (mem_keys_iff rest ip).mpr ⟨e, hm'⟩
        have hqip : ip ≠ q := by
          rw [List.map_cons, List.nodup_cons] at hkeys
          intro h
          exact hkeys.1 (h ▸ hipk)
        exact ih (data.erase q) ip e hm' hnow
          (by rw [List.map_cons, List.nodup_cons] at hkeys; exact hkeys.2)
          ((List.mem_erase_of_ne hqip).mpr hd)
      · rw [if_neg h0]
        exact ⟨List.mem_cons_of_mem _ hm', hd⟩

theorem blExpireGo_removes (now : Int) :
    ∀ (exp : List (String × Int)) (data : List String) (ip : String) (e : Int),
      (ip, e) ∈ exp → e < now →
      List.Pairwise (· ≤ ·) (exp.map Prod.snd) →
      (exp.map Prod.fst).Nodup → data.Nodup →
      (ip ∉ (blExpireGo now exp data).2 ∧
        ∀ e', (ip, e') ∉ (blExpireGo now exp data).1) := by
  intro exp
  induction exp with
  | nil => intro data ip e hm; cases hm
  | cons p rest ih =>
    intro data ip e hm hnow hsort hkeys hd
    rcases p with ⟨q, e0⟩
    rw [List.map_cons, List.nodup_cons] at hkeys
    rw [blExpireGo]
    rcases List.mem_cons.mp hm with heq | hm'
    · have hq : q = ip := (congrArg Prod.fst heq).symm
      have he0 : e0 = e := (congrArg Prod.snd heq).symm
      rw [if_pos (by rw [he0]; exact hnow)]
      have hgone : ip ∉ data.erase q := by
        rw [hq]
        intro hc
        exact absurd ((List.Nodup.mem_erase_iff hd).mp hc).1 (by simp)
      have hnokey : ip ∉ rest.map Prod.fst := hq ▸ hkeys.1
      constructor
      · intro hc
        exact hgone (blExpireGo_data_subset now rest (data.erase q) ip hc)
      · intro e' hc
        have : (ip, e') ∈ rest :=
          (blExpireGo_expiry_sublist now rest (data.erase q)).mem hc
        exact hnokey ((mem_keys_iff rest ip).mpr ⟨e', this⟩)
    · have hqip : q ≠ ip := by
        intro h
        exact hkeys.1 (h ▸ (mem_keys_iff rest ip).mpr ⟨e, hm'⟩)
      have he0e : e0 ≤ e := by
        rw [List.map_cons] at hsort
        exact List.rel_of_pairwise_cons hsort
          (List.mem_map.mpr ⟨(ip, e), hm', rfl⟩)
      rw [if_pos (lt_of_le_of_lt he0e hnow)]
      exact ih (data.erase q) ip e hm' hnow
        (by rw [List.map_cons] at hsort; exact hsort.tail)
        hkeys.2 (List.Nodup.erase q hd)

theorem blWF_init : blWF blInit := by
  refine ⟨fun q => ?_, List.nodup_nil, List.nodup_nil⟩
  constructor
  · intro h; cases h
  · rintro ⟨e, he⟩; cases he

theorem blWF_set (ttl : Int) (st : BLState) (ip : String) (now : Int)
    (h : blWF st) : blWF (blSet ttl st ip now) := by
  rcases h with ⟨hcorr, hkeys, hdata⟩
  rw [blSet]
  by_cases hin : ip ∈ st.data
  · rw [if_pos hin]
    exact ⟨hcorr, hkeys, hdata⟩
  · rw [if_neg hin]
    have hnokey : ip ∉ st.expiry.map Prod.fst := by
      intro hc
      exact hin ((hcorr ip).mpr ((mem_keys_iff _ ip).mp hc))
    refine ⟨fun q => ?_, ?_, List.nodup_cons.mpr ⟨hin, hdata⟩⟩
    · constructor
      · intro hq
        rcases List.mem_cons.mp hq with rfl | hq
        · exact ⟨now + ttl, List.mem_append_right _ (List.mem_singleton.mpr rfl)⟩
        · rcases (hcorr q).mp hq with ⟨e, he⟩
          exact ⟨e, List.mem_append_left _ he⟩
      · rintro ⟨e, he⟩
        rcases List.mem_append.mp he with he | he
        · exact List.mem_cons_of_mem _ ((hcorr q).mpr ⟨e, he⟩)
        · have : q = ip := congrArg Prod.fst (List.mem_singleton.mp he)
          exact this ▸ List.mem_cons_self _ _
    · rw [List.map_append, List.map_singleton, List.nodup_append]
      refine ⟨hkeys, List.nodup_singleton _, fun a ha => ?_⟩
      rw [List.mem_singleton]
      intro hc
      rw [hc] at ha
      exact hnokey ha

theorem blExpireGo_wf (now : Int) :
    ∀ (exp : List (String × Int)) (data : List String),
      (∀ q, q ∈ data ↔ ∃ e, (q, e) ∈ exp) →
      (exp.map Prod.fst).Nodup → data.Nodup →
      ((∀ q, q ∈ (blExpireGo now exp data).2 ↔
          ∃ e, (q, e) ∈ (blExpireGo now exp data).1) ∧
        ((blExpireGo now exp data).1.map Prod.fst).Nodup ∧
        (blExpireGo now exp data).2.Nodup) := by
  intro exp
  induction exp with
  | nil =>
    intro data hcorr hkeys hdata
    exact ⟨hcorr, hkeys, hdata⟩
  | cons p rest ih =>
    intro data hcorr hkeys hdata
    rcases p with ⟨q0, e0⟩
    rw [List.map_cons, List.nodup_cons] at hkeys
    rw [blExpireGo]
    by_cases h0 : e0 < now
    · rw [if_pos h0]
      refine ih (data.erase q0) (fun q => ?_) hkeys.2 (List.Nodup.erase q0 hdata)
      by_cases hq : q = q0
      · subst hq
        constructor
        · intro hc
          exact absurd ((List.Nodup.mem_erase_iff hdata).mp hc).1 (by simp)
        · rintro ⟨e, he⟩
          exact absurd ((mem_keys_iff rest q).mpr ⟨e, he⟩) hkeys.1
      · rw [List.mem_erase_of_ne hq, hcorr q]
        constructor
        · rintro ⟨e, he⟩
          rcases List.mem_cons.mp he with heq | he
          · exact absurd (congrArg Prod.fst heq) hq
          · exact ⟨e, he⟩
        · rintro ⟨e, he⟩
          exact ⟨e, List.mem_cons_of_mem _ he⟩
    · rw [if_neg h0]
      exact ⟨hcorr, List.nodup_cons.mpr ⟨hkeys.1, hkeys.2⟩, hdata⟩

theorem blWF_expire (st : BLState) (now : Int) (h : blWF st) :
    blWF (blExpire st now) := by
  rcases h with ⟨hcorr, hkeys, hdata⟩
  have := blExpireGo_wf now st.expiry st.data hcorr hkeys hdata
  exact ⟨this.1, this.2.1, this.2.2⟩

theorem blWF_fold (ttl : Int) :
    ∀ (evs : List (Int × BLEvent)) (st : BLState), blWF st →
      blWF (evs.foldl (blStep ttl) st) := by
  intro evs
  induction evs with
  | nil => intro st h; exact h
  | cons p rest ih =>
    intro st h
    rw [List.foldl_cons]
    rcases p with ⟨u, ev⟩
    cases ev with
    | set q => exact ih _ (blWF_set ttl st q u h)
    | sweep => exact ih _ (blWF_expire st u h)

theorem blWF_run (ttl : Int) (evs : List (Int × BLEvent)) :
    blWF (blRun ttl evs) :=
  blWF_fold ttl evs blInit blWF_init

theorem timesLB_append_left :
    ∀ (l1 l2 : List (Int × BLEvent)) (lb : Int),
      timesLB lb (l1 ++ l2) → timesLB lb l1 := by
  intro l1
  induction l1 with
  | nil => intro l2 lb _; exact trivial
  | cons p rest ih =>
    intro l2 lb h
    rw [List.cons_append, timesLB] at h
    exact ⟨h.1, ih l2 p.1 h.2⟩

theorem timesMono_append_left (l1 l2 : List (Int × BLEvent))
    (h : timesMono (l1 ++ l2)) : timesMono l1 := by
  cases l1 with
  | nil => exact trivial
  | cons p rest =>
    rw [List.cons_append, timesMono] at h
    exact timesLB_append_left rest l2 p.1 h

theorem timesMono_toLB (l : List (Int × BLEvent)) (h : timesMono l) :
    ∃ lb, timesLB lb l := by
  cases l with
  | nil => exact ⟨0, trivial⟩
  | cons p rest => exact ⟨p.1, le_refl _, h⟩

theorem expiry_sorted_fold (ttl : Int) :
    ∀ (evs : List (Int × BLEvent)) (st : BLState) (lb : Int),
      List.Pairwise (· ≤ ·) (st.expiry.map Prod.snd) →
      (∀ p ∈ st.expiry, p.2 ≤ lb + ttl) →
      timesLB lb evs →
      List.Pairwise (· ≤ ·)
        ((evs.foldl (blStep ttl) st).expiry.map Prod.snd) := by
  intro evs
  induction evs with
  | nil => intro st lb hs _ _; exact hs
  | cons p rest ih =>
    intro st lb hs hb hlb
    rcases p with ⟨u, ev⟩
    rcases hlb with ⟨hu, hlb'⟩
    rw [List.foldl_cons]
    cases ev with
    | set q =>
      show List.Pairwise _ ((rest.foldl (blStep ttl) (blSet ttl st q u)).expiry.map Prod.snd)
      rw [blSet]
      by_cases hin : q ∈ st.data
      · rw [if_pos hin]
        refine ih st u hs (fun p hp => ?_) hlb'
        exact le_trans (hb p hp) (by omega)
      · rw [if_neg hin]
        refine ih _ u ?_ ?_ hlb'
        · show List.Pairwise _ ((st.expiry ++ [(q, u + ttl)]).map Prod.snd)
          rw [List.map_append, List.map_singleton, List.pairwise_append]
          refine ⟨hs, List.pairwise_singleton _ _, fun x hx y hy => ?_⟩
          rw [List.mem_singleton] at hy
          rcases List.mem_map.mp hx with ⟨pp, hpp, rfl⟩
          calc pp.2 ≤ lb + ttl := hb pp hpp
            _ ≤ u + ttl := by omega
            _ = y := by rw [hy]
        · show ∀ p ∈ st.expiry ++ [(q, u + ttl)], p.2 ≤ u + ttl
          intro p hp
          rcases List.mem_append.mp hp with hp | hp
          · exact le_trans (hb p hp) (by omega)
          · rw [List.mem_singleton] at hp
            rw [hp]
    | sweep =>
      show List.Pairwise _ ((rest.foldl (blStep ttl) (blExpire st u)).expiry.map Prod.snd)
      have hsub : (blExpire st u).expiry.Sublist st.expiry :=
        blExpireGo_expiry_sublist u st.expiry st.data
      refine ih _ u (List.Pairwise.sublist (hsub.map Prod.snd) hs)
        (fun p hp => ?_) hlb'
      exact le_trans (hb p (hsub.mem hp)) (by omega)

theorem blRun_expiry_sorted (ttl : Int) (evs : List (Int × BLEvent))
    (h : timesMono evs) :
    List.Pairwise (· ≤ ·) ((blRun ttl evs).expiry.map Prod.snd) := by
  rcases timesMono_toLB evs h with ⟨lb, hlb⟩
  exact expiry_sorted_fold ttl evs blInit lb List.Pairwise.nil
    (fun p hp => absurd hp (List.not_mem_nil p)) hlb

theorem blPresent_fold (ttl : Int) (ip : String) (e : Int) :
    ∀ (evs : List (Int × BLEvent)) (st : BLState),
      blWF st → ip ∈ st.data → (ip, e) ∈ st.expiry →
      (∀ p ∈ evs, p.2 = BLEvent.sweep → p.1 ≤ e) →
      (blWF (evs.foldl (blStep ttl) st) ∧
        ip ∈ (evs.foldl (blStep ttl) st).data ∧
        (ip, e) ∈ (evs.foldl (blStep ttl) st).expiry) := by
  intro evs
  induction evs with
  | nil => intro st hwf hd he _; exact ⟨hwf, hd, he⟩
  | cons p rest ih =>
    intro st hwf hd he hsweep
    rcases p with ⟨u, ev⟩
    rw [List.foldl_cons]
    cases ev with
    | set q =>
      have hwf' := blWF_set ttl st q u hwf
      have hstep : blStep ttl st (u, BLEvent.set q) = blSet ttl st q u := rfl
      rw [hstep, blSet]
      rw [blSet] at hwf'
      by_cases hin : q ∈ st.data
      · rw [if_pos hin] at hwf' ⊢
        exact ih st hwf hd he
          (fun p hp hev => hsweep p (List.mem_cons_of_mem _ hp) hev)
      · rw [if_neg hin] at hwf' ⊢
        exact ih _ hwf' (List.mem_cons_of_mem _ hd) (List.mem_append_left _ he)
          (fun p hp hev => hsweep p (List.mem_cons_of_mem _ hp) hev)
    | sweep =>
      have hu : u ≤ e := hsweep (u, BLEvent.sweep) (List.mem_cons_self _ _) rfl
      have hwf' := blWF_expire st u hwf
      have hkeep := blExpireGo_keeps u st.expiry st.data ip e he hu
        hwf.2.1 hd
      exact ih _ hwf' hkeep.2 hkeep.1
        (fun p hp hev => hsweep p (List.mem_cons_of_mem _ hp) hev)

theorem blAbsent_fold (ttl : Int) (ip : String) :
    ∀ (evs : List (Int × BLEvent)) (st : BLState),
      ip ∉ st.data → (∀ e, (ip, e) ∉ st.expiry) →
      (∀ p ∈ evs, p.2 ≠ BLEvent.set ip) →
      (ip ∉ (evs.foldl (blStep ttl) st).data ∧
        ∀ e, (ip, e) ∉ (evs.foldl (blStep ttl) st).expiry) := by
  intro evs
  induction evs with
  | nil => intro st hd he _; exact ⟨hd, he⟩
  | cons p rest ih =>
    intro st hd he hnoset
    rcases p with ⟨u, ev⟩
    rw [List.foldl_cons]
    cases ev with
    | set q =>
      have hq : q ≠ ip := by
        intro h
        exact hnoset (u, BLEvent.set q) (List.mem_cons_self _ _) (by rw [h])
      have hstep : blStep ttl st (u, BLEvent.set q) = blSet ttl st q u := rfl
      rw [hstep, blSet]
      by_cases hin : q ∈ st.data
      · rw [if_pos hin]
        exact ih st hd he (fun p hp => hnoset p (List.mem_cons_of_mem _ hp))
      · rw [if_neg hin]
        refine ih _ ?_ ?_ (fun p hp => hnoset p (List.mem_cons_of_mem _ hp))
        · intro hc
          rcases List.mem_cons.mp hc with hc | hc
          · exact hq hc.symm
          · exact hd hc
        · intro e hc
          rcases List.mem_append.mp hc with hc | hc
          · exact he e hc
          · exact hq (congrArg Prod.fst (List.mem_singleton.mp hc)).symm
    | sweep =>
      refine ih _ ?_ ?_ (fun p hp => hnoset p (List.mem_cons_of_mem _ hp))
      · intro hc
        exact hd (blExpireGo_data_subset u st.expiry st.data ip hc)
      · intro e hc
        exact he e ((blExpireGo_expiry_sublist u st.expiry st.data).mem hc)

theorem blRun_cons_append (ttl : Int) (l1 : List (Int × BLEvent))
    (x : Int × BLEvent) (l2 : List (Int × BLEvent)) :
    blRun ttl (l1 ++ x :: l2) =
      l2.foldl (blStep ttl) (blStep ttl (blRun ttl l1) x) := by
  rw [blRun, blRun, List.foldl_append, List.foldl_cons]

/-- C5: an IP freshly inserted by `Set` at time `t0` stays blacklisted
through every prefix of the events up to the first sweep that runs
after `t0 + ttl`; that sweep (occurring by `t0 + ttl + expire_interval`
when the sweep loop keeps its schedule) removes the entry, and the IP
stays unblacklisted for as long as `Set` is not called for it again. -/
theorem claim_C5_ttl_expiry (ttl expireInterval t0 ts : Int) (ip : String)
    (evs1 evsMid evsPost : List (Int × BLEvent))
    (hmono : timesMono (evs1 ++ (t0, BLEvent.set ip) ::
      (evsMid ++ (ts, BLEvent.sweep) :: evsPost)))
    (habsent : ip ∉ (blRun ttl evs1).data)
    (hts1 : t0 + ttl < ts) (_hts2 : ts ≤ t0 + ttl + expireInterval)
    (hmidsweep : ∀ p ∈ evsMid, p.2 = BLEvent.sweep → p.1 ≤ t0 + ttl)
    (hpostset : ∀ p ∈ evsPost, p.2 ≠ BLEvent.set ip) :
    (∀ mid', mid' <+: evsMid →
      blMem (blRun ttl (evs1 ++ (t0, BLEvent.set ip) :: mid')) ip = true) ∧
    (∀ post', post' <+: evsPost →
      blMem (blRun ttl (evs1 ++ (t0, BLEvent.set ip) ::
        (evsMid ++ (ts, BLEvent.sweep) :: post'))) ip = false) := by
  have hstep0 : blStep ttl (blRun ttl evs1) (t0, BLEvent.set ip) =
      blSet ttl (blRun ttl evs1) ip t0 := rfl
  have hS0 : blSet ttl (blRun ttl evs1) ip t0 =
      BLState.mk (ip :: (blRun ttl evs1).data)
        ((blRun ttl evs1).expiry ++ [(ip, t0 + ttl)]) := by
    rw [blSet, if_neg habsent]
  have hS0wf : blWF (blSet ttl (blRun ttl evs1) ip t0) :=
    blWF_set ttl _ ip t0 (blWF_run ttl evs1)
  have hS0d : ip ∈ (blSet ttl (blRun ttl evs1) ip t0).data := by
    rw [hS0]
    exact List.mem_cons_self _ _
  have hS0e : (ip, t0 + ttl) ∈ (blSet ttl (blRun ttl evs1) ip t0).expiry := by
    rw [hS0]
    exact List.mem_append_right _ (List.mem_singleton.mpr rfl)
  constructor
  · intro mid' hpre
    rw [blRun_cons_append, hstep0]
    have h := blPresent_fold ttl ip (t0 + ttl) mid' _ hS0wf hS0d hS0e
      (fun p hp hev => hmidsweep p (hpre.sublist.mem hp) hev)
    rw [blMem]
    exact decide_eq_true h.2.1
  · intro post' hpre
    have hS1 := blPresent_fold ttl ip (t0 + ttl) evsMid _ hS0wf hS0d hS0e
      hmidsweep
    have hmonoP : timesMono (evs1 ++ (t0, BLEvent.set ip) :: evsMid) := by
      refine timesMono_append_left _ ((ts, BLEvent.sweep) :: evsPost) ?_
      rw [List.append_assoc, List.cons_append]
      exact hmono
    have hsort1 : List.Pairwise (· ≤ ·)
        ((evsMid.foldl (blStep ttl)
          (blSet ttl (blRun ttl evs1) ip t0)).expiry.map Prod.snd) := by
      have := blRun_expiry_sorted ttl
        (evs1 ++ (t0, BLEvent.set ip) :: evsMid) hmonoP
      rw [blRun_cons_append, hstep0] at this
      exact this
    set st1 := evsMid.foldl (blStep ttl) (blSet ttl (blRun ttl evs1) ip t0)
      with hst1
    have hrem := blExpireGo_removes ts st1.expiry st1.data ip (t0 + ttl)
      hS1.2.2 hts1 hsort1 hS1.1.2.1 hS1.1.2.2
    rw [blRun_cons_append, hstep0, List.foldl_append, List.foldl_cons]
    have h := blAbsent_fold ttl ip post' (blStep ttl st1 (ts, BLEvent.sweep))
      hrem.1 hrem.2 (fun p hp => hpostset p (hpre.sublist.mem hp))
    rw [blMem]
    exact decide_eq_false h.1

/-- Witness for C5 on a concrete trace: `Set a` at 0 with `ttl = 10`,
still blocked after an unrelated `Set` at 3, unblocked by the sweep at
12 and still unblocked after the sweep at 20. -/
theorem claim_C5_ttl_expiry_witness :
    blMem (blRun 10 [(0, BLEvent.set "a"), (3, BLEvent.set "b")]) "a" = true ∧
    blMem (blRun 10 [(0, BLEvent.set "a"), (3, BLEvent.set "b"),
      (12, BLEvent.sweep), (20, BLEvent.sweep)]) "a" = false := by
  have h := claim_C5_ttl_expiry 10 5 0 12 "a" [] [(3, BLEvent.set "b")]
    [(20, BLEvent.sweep)]
    (by exact ⟨by decide, by decide, by decide, trivial⟩)
    (by decide) (by decide) (by decide) (by decide) (by decide)
  exact ⟨h.1 [(3, BLEvent.set "b")] (List.prefix_refl _),
    h.2 [(20, BLEvent.sweep)] (List.prefix_refl _)⟩

end Botdetect
